import Mathlib

/-!
Verification development for the rconfd secret-driven configuration
materializer.  Rust strings are embedded as `List Char`, HashMaps as
association lists with unique keys, JSON values as an inductive sum, and the
effectful parts of the event loop (environment, filesystem, subprocesses,
vault client) as explicit oracle parameters of the state-transition
functions.  Definitions follow the Rust sources file by file; parts of the
program living in the external `vault_jwt` crate (the `Secret` record and the
generic `SecretPath` parser used by `main.rs`) are modelled from the
specification and marked as such.
-/

/-- Characters of a Rust `&str`/`String`, embedded as a list of chars. -/
abbrev Str := List Char

/-- Split a char list on every occurrence of the separator, keeping empty
chunks, as Rust's `str::split(char)` does. -/
def splitOnChar (c : Char) : Str → List Str
| [] => [[]]
| x :: rest =>
  if x = c then [] :: splitOnChar c rest
  else
    match splitOnChar c rest with
    | h :: t => (x :: h) :: t
    | [] => [[x]]

/-- Join chunks with a separator, as Rust's `join`/`intercalate`. -/
def joinSep (sep : Str) : List Str → Str
| [] => []
| [x] => x
| x :: rest => x ++ sep ++ joinSep sep rest

/-- Rust `str::split_whitespace`: split on whitespace and drop empty tokens. -/
def splitWhitespace (s : Str) : List Str :=
  ((splitOnChar ' ' s).flatMap (splitOnChar '\t') |>.flatMap (splitOnChar '\n')).filter
    (fun t => !t.isEmpty)

/-- Lookup in an association list, the embedding of `HashMap::get`. -/
def alookup {κ α : Type} [DecidableEq κ] : List (κ × α) → κ → Option α
| [], _ => none
| (k', v) :: rest, k => if k' = k then some v else alookup rest k

/-- Insert-or-replace in an association list, the embedding of
`HashMap::insert` (and of `entry().or_insert(..)` followed by a write). -/
def aupsert {κ α : Type} [DecidableEq κ] : List (κ × α) → κ → α → List (κ × α)
| [], k, v => [(k, v)]
| (k', v') :: rest, k, v =>
  if k' = k then (k', v) :: rest else (k', v') :: aupsert rest k v

/-- Decidable equality for `Except` results, so that concrete runs of the
fallible embedded functions can be checked by `decide`. -/
instance instDecEqExcept {α β : Type} [DecidableEq α] [DecidableEq β] :
    DecidableEq (Except α β)
| .error a, .error b =>
  if h : a = b then isTrue (by rw [h])
  else isFalse (by intro he; injection he; contradiction)
| .error _, .ok _ => isFalse (fun h => Except.noConfusion h)
| .ok _, .error _ => isFalse (fun h => Except.noConfusion h)
| .ok a, .ok b =>
  if h : a = b then isTrue (by rw [h])
  else isFalse (by intro he; injection he; contradiction)

mutual
/-- JSON-typed dynamic value (the embedding of `serde_json::Value`); numbers
are embedded as integers, which covers every value the claims touch, and the
nested sequences are mutual inductives so that equality stays decidable. -/
inductive JsonValue : Type
| null : JsonValue
| bool (b : Bool) : JsonValue
| num (n : Int) : JsonValue
| str (s : Str) : JsonValue
| arr (xs : JsonList) : JsonValue
| obj (fields : JsonFields) : JsonValue
deriving DecidableEq, Repr
/-- Elements of a JSON array. -/
inductive JsonList : Type
| nil : JsonList
| cons (hd : JsonValue) (tl : JsonList) : JsonList
deriving DecidableEq, Repr
/-- Key/value fields of a JSON object. -/
inductive JsonFields : Type
| nil : JsonFields
| cons (k : Str) (v : JsonValue) (tl : JsonFields) : JsonFields
deriving DecidableEq, Repr
end

/-- Modelled from the spec: the `Secret` record of the external `vault_jwt`
crate (not under src/).  Per spec §3 it carries the JSON value, an optional
lease duration, the renewable flag and a `fetched_at` wall-clock stamp; time
is embedded as `Nat` instants. -/
structure Secret : Type where
  value : JsonValue
  lease_duration : Option Nat
  renewable : Bool
  fetched_at : Nat
deriving DecidableEq, Repr

/-- Modelled from the spec: `Secret::new(value, dur)` builds a non-renewable
secret fetched now. -/
def Secret.new (value : JsonValue) (dur : Option Nat) (now : Nat) : Secret :=
  { value := value, lease_duration := dur, renewable := false, fetched_at := now }

/-- Modelled from the spec: `is_valid()` holds iff there is no lease or the
elapsed time since the fetch is below the lease duration. -/
def Secret.is_valid (s : Secret) (now : Nat) : Bool :=
  match s.lease_duration with
  | none => true
  | some d => now - s.fetched_at < d

/-- Modelled from the spec: `to_renew()` holds iff the secret is renewable and
at least two thirds of the lease duration have elapsed. -/
def Secret.to_renew (s : Secret) (now : Nat) : Bool :=
  s.renewable &&
    match s.lease_duration with
    | none => false
    | some d => decide (d * 2 / 3 ≤ now - s.fetched_at)

/-- Modelled from the spec: `renew_delay()` is two thirds of the lease
duration for renewable secrets and `none` otherwise. -/
def Secret.renew_delay (s : Secret) : Option Nat :=
  if s.renewable then some ((s.lease_duration.getD 0) * 2 / 3) else none

/-- Modelled from the spec: `has_lease()` holds iff a lease is present,
including a 0-duration lease. -/
def Secret.has_lease (s : Secret) : Bool :=
  s.lease_duration.isSome

/-- The secret store of src/secrets.rs: `Secrets(HashMap<String,
Option<Secret>>)`, embedded as an association list. -/
abbrev SecretsM := List (Str × Option Secret)

/-- src/secrets.rs `Secrets::replace`: take the previous slot value (missing
slots count as `None`), report whether it was `None` or a different secret
(`vault_jwt` equality compares the value payload only, per spec §3), and
store `Some(secret)`. -/
def SecretsM.replace (m : SecretsM) (path : Str) (secret : Secret) :
    SecretsM × Bool :=
  let prev_val : Option Secret := (alookup m path).getD none
  let res :=
    match prev_val with
    | none => true
    | some p => decide (p.value ≠ secret.value)
  (aupsert m path (some secret), res)

/-- src/secrets.rs `Secrets::any_leased`: some stored secret has a lease. -/
def SecretsM.any_leased (m : SecretsM) : Bool :=
  m.any (fun e =>
    match e.2 with
    | some s => s.has_lease
    | none => false)

/-- src/backend.rs: the four supported backends. -/
inductive Backend : Type
| Vault : Backend
| Env : Backend
| File : Backend
| Exe : Backend
deriving DecidableEq, Repr

/-- src/backend.rs: the backend lookup list `BACKENDS`. -/
def BACKENDS : List (Str × Backend) :=
  [("vault".toList, .Vault), ("env".toList, .Env),
   ("file".toList, .File), ("exe".toList, .Exe)]

/-- Secret-path parse failures, named as in spec §3. -/
inductive VErr : Type
| MissingBackend : VErr
| MissingArgs : VErr
| MissingPath : VErr
| ExtraData (s : Str) : VErr
| UnknownBackend (s : Str) : VErr
deriving DecidableEq, Repr

/-- src/backend.rs `TryFrom<&str> for Backend`: the first table entry whose
name is a prefix of the given token wins; otherwise the backend is unknown. -/
def Backend.tryFrom (backend_str : Str) : Except VErr Backend :=
  match BACKENDS.find? (fun pb => pb.1.isPrefixOf backend_str) with
  | some pb => .ok pb.2
  | none => .error (.UnknownBackend backend_str)

/-- Modelled from the spec: the parsed `SecretPath<Backend>` of the external
`vault_jwt` crate (not under src/).  Per spec §3 it carries the backend, the
positional args, the optional kwargs, the backend-specific payload
(`full_path` in the code) and the round-trippable textual form (`path` in
the code, which keys the secret store). -/
structure VSecretPath : Type where
  backend : Backend
  args : List Str
  kwargs : Option (List (Str × Str))
  full_path : Str
  path : Str
deriving DecidableEq, Repr

/-- Split one argument token at its first `=` into a key/value pair, as the
split-based parser does with `arg.find('=')`. -/
def splitKV : Str → Option (Str × Str)
| [] => none
| c :: rest =>
  if c = '=' then some ([], rest)
  else (splitKV rest).map (fun kv => (c :: kv.1, kv.2))

/-- Separate the comma-split argument tokens into positional arguments and
keyword pairs, preserving order within each class. -/
def vsplitArgs : List Str → List Str × List (Str × Str)
| [] => ([], [])
| t :: rest =>
  let ak := vsplitArgs rest
  match splitKV t with
  | some kv => (ak.1, kv :: ak.2)
  | none => (t :: ak.1, ak.2)

/-- Modelled from the spec: the `vault_jwt` secret-path parser used by
`main.rs` (the crate is not under src/), following the spec §4.1 split-based
implementation exactly as the in-repo `parser_simple.rs` does: split on `:`
into backend/args/path (a fourth component is extra data), convert the
backend by prefix, split args on `,` and on the first `=`.  `kwargs` is
`none` when no `key=value` token is present, and `path` is the full textual
form. -/
def vparse (s : Str) : Except VErr VSecretPath :=
  match splitOnChar ':' s with
  | [] => .error .MissingBackend
  | backend_str :: rest =>
    match Backend.tryFrom backend_str with
    | .error e => .error e
    | .ok backend =>
      match rest with
      | [] => .error .MissingArgs
      | args_ :: rest2 =>
        match rest2 with
        | [p] =>
          let ak := vsplitArgs (splitOnChar ',' args_)
          .ok { backend := backend, args := ak.1,
                kwargs := if ak.2.isEmpty then none else some ak.2,
                full_path := p, path := s }
        | _ => .error (.ExtraData (joinSep [':'] rest2))

/-- src/conf.rs `Hooks`: the two optional hook command lines. -/
structure Hooks : Type where
  modified : Option Str
  ready : Option Str
deriving DecidableEq, Repr

/-- src/conf.rs `TemplateConf`: one template job declaration. -/
structure TemplateConf : Type where
  dir : Str
  mode : Str
  user : Str
  secrets : List (Str × Str)
  hooks : Hooks
deriving DecidableEq, Repr

/-- src/message.rs `Message`: messages consumed by the main loop. -/
inductive Msg : Type
| Login (role : Str) : Msg
| GetSecret (path : Str) (gen_tmpl : Bool) : Msg
| GenerateTemplate (tmpl : Str) : Msg
| GenerateAllTemplates : Msg
| InsertTemplate (tmpl : Str) (conf : TemplateConf) : Msg
deriving DecidableEq, Repr

/-- src/conf.rs `TemplateConfs::generate_templates`: for every job whose
declared secrets contain `path` and whose declared store slots are all
`Some`, first enqueue a non-triggering `GetSecret` for every declared slot
that is `None` or not `is_valid`, then enqueue `GenerateTemplate`. -/
def generate_templates (confs : List (Str × TemplateConf)) (secrets : SecretsM)
    (path : Str) (now : Nat) : List Msg :=
  confs.foldl
    (fun msgs tc =>
      if (alookup tc.2.secrets path).isSome &&
          secrets.all (fun e => !(alookup tc.2.secrets e.1).isSome || e.2.isSome)
      then
        let refetch := secrets.filterMap (fun e =>
          if (alookup tc.2.secrets e.1).isSome then
            match e.2 with
            | none => some (Msg.GetSecret e.1 false)
            | some s =>
              if !s.is_valid now then some (Msg.GetSecret e.1 false) else none
          else none)
        msgs ++ refetch ++ [Msg.GenerateTemplate tc.1]
      else msgs)
    []

/-- src/conf.rs `TemplateConfs::generate_all_templates`: enqueue
`GenerateTemplate` for every job all of whose declared secret paths are keys
of the store (a `None` placeholder counts), skipping the others.  The list
order of `confs` stands for the `HashMap` iteration order. -/
def generate_all_templates (confs : List (Str × TemplateConf))
    (secrets : SecretsM) : List Msg :=
  confs.foldl
    (fun msgs tc =>
      if tc.2.secrets.all (fun e => (alookup secrets e.1).isSome)
      then msgs ++ [Msg.GenerateTemplate tc.1]
      else msgs)
    []

/-- Rust `str::to_ascii_uppercase`. -/
def toUpperAscii (s : Str) : Str := s.map Char.toUpper

/-- Rust `str::trim`: drop whitespace from both ends. -/
def trimAscii (s : Str) : Str :=
  ((s.dropWhile Char.isWhitespace).reverse.dropWhile Char.isWhitespace).reverse

/-- Errors of the `GetSecret` handler, from src/result.rs plus the parse
errors; `IndexPanic` stands for the Rust index-out-of-bounds panic on
`args[0]` of an all-whitespace exe payload. -/
inductive RError : Type
| parse (e : VErr) : RError
| MissingRole (path : Str) : RError
| ExpectedArg (expected : Str) (path : Str) : RError
| CmdError (cmdline : Str) (code : Nat) (stderr : Str) : RError
| RelativePath (path : Str) (head : Str) : RError
| OpenError (path : Str) : RError
| ParseError (what : Str) (err : Str) : RError
| VaultError (path : Str) (err : Str) : RError
| IndexPanic : RError
deriving DecidableEq, Repr

/-- Observable side effects of one `GetSecret` message: commands run, vault
fetches, environment reads and file reads. -/
inductive Eff : Type
| exec (argv : List Str) : Eff
| vaultGet (role method p : Str) : Eff
| envRead (name : Str) : Eff
| fileRead (p : Str) : Eff
deriving DecidableEq, Repr

/-- State delta of one `GetSecret` message: the new store, the messages sent
to the channel, and the messages scheduled through `delay_task`. -/
structure GSOut : Type where
  secrets : SecretsM
  msgs : List Msg
  delayed : List (Nat × Msg)
deriving DecidableEq, Repr

/-- Oracles for the effectful collaborators of the main loop: wall clock,
effective uid, process environment, filesystem, subprocess execution, JSON
parsing (serde_json) and the authenticated vault client. -/
structure World : Type where
  now : Nat
  uid : Nat
  envVar : Str → Option Str
  fileContents : Str → Option Str
  exec : List Str → Nat × Str × Str
  jsonParse : Str → Except Str JsonValue
  vault : Str → Str → Str → Option (List (Str × Str)) → Except Str Secret

/-- Shared tail of the non-vault backend arms of src/main.rs: replace the
secret in the store and, when the value changed and `gen_tmpl` is set, ask
for the dependent templates to be regenerated. -/
def finishReplace (w : World) (confs : List (Str × TemplateConf))
    (secrets : SecretsM) (path : Str) (gen_tmpl : Bool) (secret : Secret) :
    GSOut :=
  let r := SecretsM.replace secrets path secret
  let msgs := if r.2 && gen_tmpl then generate_templates confs r.1 path w.now else []
  ⟨r.1, msgs, []⟩

/-- src/main.rs, `Message::GetSecret(path, gen_tmpl)` arm of `main_loop`
(lines 157-357): parse the path again, skip everything when the store already
holds a present, valid, not-to-renew secret under that path, otherwise
dispatch on the backend, schedule renewals, replace the store slot and
regenerate dependent templates when the value changed.  Returns the state
delta (or the propagated error) together with the effect log. -/
def handleGetSecret (w : World) (confs : List (Str × TemplateConf))
    (secrets : SecretsM) (path : Str) (gen_tmpl : Bool) :
    Except RError GSOut × List Eff :=
  match vparse path with
  | .error e => (.error (.parse e), [])
  | .ok secret_path =>
    if (match alookup secrets secret_path.path with
        | some (some s) => s.is_valid w.now && !s.to_renew w.now
        | _ => false)
    then (.ok ⟨secrets, [], []⟩, [])
    else
      match secret_path.args.head? with
      | none => (.error (.MissingRole path), [])
      | some role =>
        let method := toUpperAscii ((secret_path.args.get? 1).getD "get".toList)
        match secret_path.backend with
        | .Vault =>
          let effs := [Eff.vaultGet role method secret_path.full_path]
          match w.vault role method secret_path.full_path secret_path.kwargs with
          | .error e => (.error (.VaultError secret_path.full_path e), effs)
          | .ok secret =>
            let delayed :=
              match secret.renew_delay with
              | some d => [(d, Msg.GetSecret path true)]
              | none => []
            let r := SecretsM.replace secrets path secret
            let msgs :=
              if r.2 && gen_tmpl then generate_templates confs r.1 path w.now else []
            (.ok ⟨r.1, msgs, delayed⟩, effs)
        | .Env =>
          if role = "str".toList then
            let value := JsonValue.str ((w.envVar secret_path.full_path).getD [])
            (.ok (finishReplace w confs secrets path gen_tmpl
                (Secret.new value none w.now)),
             [Eff.envRead secret_path.full_path])
          else if role = "js".toList then
            match w.jsonParse ((w.envVar secret_path.full_path).getD "\"\"".toList) with
            | .error e =>
              (.error (.ParseError secret_path.full_path e),
               [Eff.envRead secret_path.full_path])
            | .ok value =>
              (.ok (finishReplace w confs secrets path gen_tmpl
                  (Secret.new value none w.now)),
               [Eff.envRead secret_path.full_path])
          else (.error (.ExpectedArg "str or js".toList path), [])
        | .File =>
          let effs := [Eff.fileRead secret_path.full_path]
          match w.fileContents secret_path.full_path with
          | none => (.error (.OpenError secret_path.full_path), effs)
          | some content =>
            if role = "str".toList then
              (.ok (finishReplace w confs secrets path gen_tmpl
                  (Secret.new (JsonValue.str content) none w.now)), effs)
            else if role = "js".toList then
              match w.jsonParse content with
              | .error e => (.error (.ParseError secret_path.full_path e), effs)
              | .ok value =>
                (.ok (finishReplace w confs secrets path gen_tmpl
                    (Secret.new value none w.now)), effs)
            else (.error (.ExpectedArg "str or js".toList path), effs)
        | .Exe =>
          match splitWhitespace secret_path.full_path with
          | [] => (.error .IndexPanic, [])
          | arg0 :: restTok =>
            if !(['/'].isPrefixOf arg0) then
              (.error (.RelativePath path arg0), [])
            else
              let argv :=
                if w.uid = 0 then
                  "/usr/bin/sudo".toList :: "-u".toList :: "nobody".toList ::
                    arg0 :: restTok
                else arg0 :: restTok
              let out := w.exec argv
              let effs := [Eff.exec argv]
              if out.1 ≠ 0 then
                (.error (.CmdError secret_path.full_path out.1 out.2.2), effs)
              else
                let valueRes :
                    Except (RError × List Eff) (JsonValue × List Eff) :=
                  if role = "str".toList then
                    .ok (JsonValue.str (trimAscii out.2.1), effs)
                  else if role = "js".toList then
                    -- the source parses the environment variable named by the
                    -- command line here, not the command's stdout
                    match w.jsonParse
                        ((w.envVar secret_path.full_path).getD "\"\"".toList) with
                    | .error e =>
                      .error (.ParseError secret_path.full_path e,
                        effs ++ [Eff.envRead secret_path.full_path])
                    | .ok v => .ok (v, effs ++ [Eff.envRead secret_path.full_path])
                  else .error (.ExpectedArg "str or js".toList path, effs)
                match valueRes with
                | .error e => (.error e.1, e.2)
                | .ok ve =>
                  let durRes : Except RError (Option Nat) :=
                    match secret_path.args.get? 1 with
                    | some t =>
                      if t = "static".toList then .ok none
                      else if t = "dynamic".toList then .ok (some 0)
                      else .error (.ExpectedArg "static or dynamic".toList path)
                    | none => .ok none
                  match durRes with
                  | .error e => (.error e, ve.2)
                  | .ok dur =>
                    (.ok (finishReplace w confs secrets path gen_tmpl
                        (Secret.new ve.1 dur w.now)), ve.2)

/-- src/main.rs lines 389-398, the binding-map loop of the
`Message::GenerateTemplate` arm: iterate over every store entry, unwrap its
slot (the Rust `unwrap` panics — embedded as the error case — whenever any
slot of the whole store is `None`, before the declared-secrets filter is
applied), and insert `binding_name → value` for the entries declared by the
job.  `acc` is the `serde_json::Map` under construction. -/
def buildSecretsValGo (declared : List (Str × Str)) :
    SecretsM → List (Str × JsonValue) → Except Unit (List (Str × JsonValue))
| [], acc => .ok acc
| (p, oSecret) :: rest, acc =>
  match oSecret with
  | none => .error ()
  | some secret =>
    match alookup declared p with
    | some name => buildSecretsValGo declared rest (aupsert acc name secret.value)
    | none => buildSecretsValGo declared rest acc

/-- The `secrets` extVar map built for one job from the store. -/
def buildSecretsVal (secrets : SecretsM) (declared : List (Str × Str)) :
    Except Unit (List (Str × JsonValue)) :=
  buildSecretsValGo declared secrets []

/-- Digit loop of `u32::from_str_radix(s, 8)`: every char must be an octal
digit and the accumulated value must fit in 32 bits. -/
def from_str_radix8Go : Str → Nat → Option Nat
| [], acc => some acc
| c :: cs, acc =>
  if '0' ≤ c ∧ c ≤ '7' then
    let acc' := acc * 8 + (c.toNat - '0'.toNat)
    if acc' < 2 ^ 32 then from_str_radix8Go cs acc' else none
  else none

/-- src/main.rs line 418, `u32::from_str_radix(&conf.mode, 8)`: optional
leading `+`, then one or more octal digits. -/
def from_str_radix8 (s : Str) : Option Nat :=
  match s with
  | '+' :: rest => if rest.isEmpty then none else from_str_radix8Go rest 0
  | _ => if s.isEmpty then none else from_str_radix8Go s 0

/-- One output file on disk: its contents and its permission bits. -/
structure DiskFile : Type where
  content : Str
  mode : Nat
deriving DecidableEq, Repr

/-- src/main.rs lines 451-460, the per-file tail of the
`Message::GenerateTemplate` arm: `File::create` gives the file its creation
mode, `writeln!` appends a newline to the data, and when the octal mode
parse succeeded the code reads the file's `Permissions` value and calls
`set_mode` on that local value — the source never writes the permissions
back to disk, so the on-disk mode stays the creation mode. -/
def writeFileStep (createMode : Nat) (data : Str) (mode : Option Nat) :
    DiskFile :=
  let file : DiskFile := { content := data ++ ['\n'], mode := createMode }
  match mode with
  | some m =>
    let _perms := file.mode
    let _perms2 := m
    file
  | none => file

/-- Loop-control state after one successful `GenerateTemplate`. -/
structure PassEnd : Type where
  generated : Nat
  first_run : Bool
  ready_signaled : Bool
  ready_hook : Bool
  exit : Bool
deriving DecidableEq, Repr

/-- src/main.rs lines 476-495, the pass-counting tail of the
`Message::GenerateTemplate` arm: increment `generated`; when it reaches the
number of registered jobs, reset it, clear `first_run`, signal readiness,
fire the ready hook, and leave the event loop unless daemon mode is active
and the store holds a leased secret. -/
def finishGenerate (generated confsLen : Nat) (first_run daemon : Bool)
    (secrets : SecretsM) : PassEnd :=
  let generated := generated + 1
  if generated = confsLen then
    { generated := 0, first_run := false, ready_signaled := true,
      ready_hook := true, exit := !daemon || !secrets.any_leased }
  else
    { generated := generated, first_run := first_run, ready_signaled := false,
      ready_hook := false, exit := false }

namespace secret

/-- src/secret.rs: the historical `Backend` enum of the revision that pairs
with the nom parser (three backends, no exe). -/
inductive Backend : Type
| Vault : Backend
| Env : Backend
| File : Backend
deriving DecidableEq, Repr

/-- src/secret.rs: the `BACKENDS` lookup list. -/
def BACKENDS : List (Str × Backend) :=
  [("vault".toList, .Vault), ("env".toList, .Env), ("file".toList, .File)]

/-- src/error.rs `Error` (the nom kind payload is collapsed to the input). -/
inductive Error : Type
| UnknowBackend (s : Str) : Error
| NoBackend : Error
| NoArgs (s : Str) : Error
| NoPath (s : Str) : Error
| ExtraData (s : Str) : Error
| Nom (s : Str) : Error
deriving DecidableEq, Repr

/-- src/secret.rs `impl Display for Backend`: print the name of the first
table entry holding this backend. -/
def Backend.display (b : Backend) : Str :=
  match BACKENDS.find? (fun sb => sb.2 == b) with
  | some sb => sb.1
  | none => []

/-- src/secret.rs `TryFrom<&str> for Backend`: the first table entry whose
name is a prefix of the token wins. -/
def Backend.tryFrom (backend_str : Str) : Except Error Backend :=
  match BACKENDS.find? (fun pb => pb.1.isPrefixOf backend_str) with
  | some pb => .ok pb.2
  | none => .error (.UnknowBackend backend_str)

/-- src/secret.rs `SecretPath`. -/
structure SecretPath : Type where
  backend : Backend
  args : List Str
  kwargs : Option (List (Str × Str))
  path : Str
deriving DecidableEq, Repr

/-- src/secret.rs `impl Display for SecretPath` (lines 107-117): backend,
`:`, the positional args joined with `,`, then `,k=v` for each kwarg, then
`:` and the path. -/
def SecretPath.display (sp : SecretPath) : Str :=
  sp.backend.display ++ [':'] ++ joinSep [','] sp.args ++
    (match sp.kwargs with
     | some kws =>
       kws.foldl (fun acc kv => acc ++ [','] ++ kv.1 ++ ['='] ++ kv.2) []
     | none => []) ++ [':'] ++ sp.path

end secret

namespace parser

/-- src/parser.rs `Arg`: a positional or keyword argument token. -/
inductive Arg : Type
| arg (s : Str) : Arg
| kwArg (k : Str) (v : Str) : Arg
deriving DecidableEq, Repr

/-- The delimiter set of the `literal` combinator, `is_not(":,=")`. -/
def isDelim (c : Char) : Bool := c = ':' || c = ',' || c = '='

/-- Character loop of `literal`: take non-delimiter chars. -/
def literalGo : Str → Str × Str
| [] => ([], [])
| c :: rest =>
  if isDelim c then ([], c :: rest)
  else
    let tr := literalGo rest
    (c :: tr.1, tr.2)

/-- src/parser.rs `literal`, `recognize(many1(is_not(":,=")))`: one or more
non-delimiter chars. -/
def literal (s : Str) : Option (Str × Str) :=
  let tr := literalGo s
  if tr.1.isEmpty then none else some tr

/-- Character loop of nom's `alpha1`. -/
def alpha1Go : Str → Str × Str
| [] => ([], [])
| c :: rest =>
  if c.isAlpha then
    let tr := alpha1Go rest
    (c :: tr.1, tr.2)
  else ([], c :: rest)

/-- nom `alpha1`: one or more alphabetic chars. -/
def alpha1 (s : Str) : Option (Str × Str) :=
  let tr := alpha1Go s
  if tr.1.isEmpty then none else some tr

/-- src/parser.rs `kwarg`: `separated_pair(literal, tag("="), literal)`. -/
def kwarg (s : Str) : Option (Arg × Str) :=
  match literal s with
  | some (k, r1) =>
    match r1 with
    | '=' :: r2 =>
      match literal r2 with
      | some (v, r3) => some (.kwArg k v, r3)
      | none => none
    | _ => none
  | none => none

/-- src/parser.rs `arg`: a bare literal token. -/
def arg (s : Str) : Option (Arg × Str) :=
  (literal s).map (fun tr => (.arg tr.1, tr.2))

/-- `alt((kwarg, arg))`: keyword argument first, bare token as fallback. -/
def altArg (s : Str) : Option (Arg × Str) :=
  match kwarg s with
  | some ar => some ar
  | none => arg s

/-- Fuel-indexed loop of src/parser.rs `arg1`,
`separated_list1(tag(","), alt((kwarg, arg)))`: parse one argument, and keep
parsing after each comma while an argument follows; a comma not followed by
an argument is left unconsumed.  Each iteration consumes at least one char,
so fuel `length + 1` never runs out. -/
def arg1F : Nat → Str → Option (List Arg × Str)
| 0, _ => none
| fuel + 1, s =>
  match altArg s with
  | none => none
  | some ar =>
    match ar.2 with
    | ',' :: r2 =>
      match arg1F fuel r2 with
      | some lr => some (ar.1 :: lr.1, lr.2)
      | none => some ([ar.1], ar.2)
    | _ => some ([ar.1], ar.2)

/-- src/parser.rs `arg1`. -/
def arg1 (s : Str) : Option (List Arg × Str) :=
  arg1F (s.length + 1) s

/-- Loop of src/parser.rs `splitargs`: push each token on the positional or
keyword list, preserving order in each class. -/
def splitargsGo : List Arg → List Str × List (Str × Str)
| [] => ([], [])
| .arg s :: rest =>
  let ak := splitargsGo rest
  (s :: ak.1, ak.2)
| .kwArg k v :: rest =>
  let ak := splitargsGo rest
  (ak.1, (k, v) :: ak.2)

/-- src/parser.rs `splitargs`: kwargs become `none` when no keyword token was
present. -/
def splitargs (args : List Arg) : List Str × Option (List (Str × Str)) :=
  let ak := splitargsGo args
  (ak.1, if ak.2.isEmpty then none else some ak.2)

/-- src/parser.rs `secret_path`: `backend` terminated by `:` (else `NoArgs`),
`arg1` terminated by `:` (else `NoPath`), then a final `literal`; returns the
unconsumed rest together with the parsed triple. -/
def secret_path (s : Str) :
    Except secret.Error (Str × (secret.Backend × List Arg × Str)) :=
  match alpha1 s with
  | none => .error (.Nom s)
  | some (tok, r1) =>
    match secret.Backend.tryFrom tok with
    | .error e => .error e
    | .ok b =>
      match r1 with
      | ':' :: r2 =>
        match arg1 r2 with
        | none => .error (.Nom r2)
        | some (args, r3) =>
          match r3 with
          | ':' :: r4 =>
            match literal r4 with
            | none => .error (.Nom r4)
            | some (p, r5) => .ok (r5, (b, args, p))
          | _ => .error (.NoPath r3)
      | _ => .error (.NoArgs r1)

/-- src/parser.rs `TryFrom<&String> for SecretPath` (lines 59-79): reject the
empty string, run `secret_path`, reject leftover input, split the args. -/
def tryFrom (path : Str) : Except secret.Error secret.SecretPath :=
  if path.isEmpty then .error .NoBackend
  else
    match secret_path path with
    | .error e => .error e
    | .ok (rest, (b, args, p)) =>
      if !rest.isEmpty then .error (.ExtraData rest)
      else
        let ak := splitargs args
        .ok { backend := b, args := ak.1, kwargs := ak.2, path := p }

end parser

/-- Claim C7's reading of "the original string up to the stable reordering of
kwargs", written from the spec's words: split the original on `:` into
backend, args and path segments, replace the backend token by the table name
it matched, split the args segment on `,`, and print the tokens without `=`
first (in order) followed by the tokens with `=` (in order). -/
def specReorder (s : Str) : Option Str :=
  match splitOnChar ':' s with
  | [b, a, p] =>
    match secret.BACKENDS.find? (fun pb => pb.1.isPrefixOf b) with
    | some pb =>
      let toks := splitOnChar ',' a
      some (pb.1 ++ [':'] ++
        joinSep [',']
          (toks.filter (fun t => !decide ('=' ∈ t)) ++
           toks.filter (fun t => decide ('=' ∈ t))) ++ [':'] ++ p)
    | none => none
  | _ => none

namespace subst

/-- src/subst.rs `Token`. -/
inductive Token : Type
| Var (s : Str) : Token
| Str (s : Str) : Token
| BraceError : Token
deriving DecidableEq, Repr

/-- Rust `str::find(char)`: index of the first occurrence. -/
def findChar (c : Char) : Str → Option Nat
| [] => none
| x :: rest => if x = c then some 0 else (findChar c rest).map (· + 1)

/-- Rust `str::find("${")`: index of the first occurrence of the two-char
pattern. -/
def findDollarBrace : Str → Option Nat
| x :: y :: rest =>
  if x = '$' && y = '{' then some 0
  else (findDollarBrace (y :: rest)).map (· + 1)
| _ => none

/-- src/subst.rs `SubstIterator::yield_var`: the name runs from after `${` to
the first `}`, and the remainder continues after it; with no `}` the
remainder is exhausted and a brace error is produced. -/
def yield_var (s : Str) : Token × Str :=
  match findChar '}' s with
  | some e => (.Var ((s.drop 2).take (e - 2)), s.drop (e + 1))
  | none => (.BraceError, [])

/-- src/subst.rs `Iterator::next` for `SubstIterator`, on the remainder:
empty remainder ends the stream; a leading `${` yields a variable; otherwise
the text up to the next `${` (or the whole remainder) is yielded. -/
def next (s : Str) : Option (Token × Str) :=
  if s.isEmpty then none
  else if s.take 2 = ['$', '{'] then some (yield_var s)
  else
    match findDollarBrace s with
    | none => some (.Str s, [])
    | some e => some (.Str (s.take e), s.drop e)

/-- Fuel-indexed token stream; by `next_shrinks`, fuel `length + 1` is never
exhausted. -/
def tokensF : Nat → Str → List Token
| 0, _ => []
| fuel + 1, s =>
  match next s with
  | none => []
  | some tr => tr.1 :: tokensF fuel tr.2

/-- The token stream of `SubstIterator::new(s).collect()`. -/
def tokens (s : Str) : List Token := tokensF (s.length + 1) s

/-- Substitution failures of src/subst.rs `subst_envar`. -/
inductive SubstErr : Type
| UnknownVar (name : Str) : SubstErr
| RightBrace : SubstErr
deriving DecidableEq, Repr

/-- src/subst.rs `subst_envar`: concatenate the token stream, replacing each
variable by its environment value; a missing variable or an unmatched brace
is an error. -/
def subst_envar (envf : Str → Option Str) (s : Str) : Except SubstErr Str :=
  (tokens s).foldlM
    (fun res t =>
      match t with
      | .Str chunk => .ok (res ++ chunk)
      | .Var name =>
        match envf name with
        | some val => .ok (res ++ val)
        | none => .error (.UnknownVar name)
      | .BraceError => .error .RightBrace)
    []

end subst

/-- Concrete oracle environment for exercising the handler on exe paths:
uid 1000, empty process environment and filesystem, every command exiting 0
with stdout `[1, 2]`, and a JSON parser defined on the two strings that
occur in the run. -/
def w4 : World :=
  { now := 0, uid := 1000,
    envVar := fun _ => none,
    fileContents := fun _ => none,
    exec := fun _ => (0, "[1, 2]".toList, []),
    jsonParse := fun s =>
      if s = "\"\"".toList then .ok (.str [])
      else .ok (.arr (.cons (.num 1) (.cons (.num 2) .nil))),
    vault := fun _ _ _ _ => .error [] }

/-- Claim C7's literal notion of "the original up to the stable reordering of
kwargs": keep the backend token as written, print the comma-split argument
tokens without `=` first and the tokens with `=` after, both in order. -/
def kwargsReorder (s : Str) : Option Str :=
  match splitOnChar ':' s with
  | [b, a, p] =>
    let toks := splitOnChar ',' a
    some (b ++ [':'] ++
      joinSep [',']
        (toks.filter (fun t => !decide ('=' ∈ t)) ++
         toks.filter (fun t => decide ('=' ∈ t))) ++ [':'] ++ p)
  | _ => none

/-- The entries that the binding-map loop contributes for a store in which
every slot is present: one `name → value` pair per store entry declared by
the job, in store order. -/
def declaredImage (declared : List (Str × Str)) : SecretsM → List (Str × JsonValue)
| [] => []
| (_, none) :: rest => declaredImage declared rest
| (p, some s) :: rest =>
  match alookup declared p with
  | some name => (name, s.value) :: declaredImage declared rest
  | none => declaredImage declared rest

namespace parser

/-- The textual form of one argument token inside the args segment. -/
def argStr : Arg → Str
| .arg s => s
| .kwArg k v => k ++ '=' :: v

/-- Well-formedness of a parsed argument token: the parts are nonempty and
free of the delimiter characters. -/
def ArgWF : Arg → Prop
| .arg s => s ≠ [] ∧ ∀ c ∈ s, isDelim c = false
| .kwArg k v =>
  (k ≠ [] ∧ ∀ c ∈ k, isDelim c = false) ∧ (v ≠ [] ∧ ∀ c ∈ v, isDelim c = false)

end parser

theorem alookup_aupsert_self {κ α : Type} [DecidableEq κ]
    (l : List (κ × α)) (k : κ) (v : α) : alookup (aupsert l k v) k = some v := by
  induction l with
  | nil => simp [aupsert, alookup]
  | cons hd tl ih =>
    obtain ⟨k', v'⟩ := hd
    by_cases h : k' = k <;> simp [aupsert, alookup, h, ih]

theorem alookup_mem {κ α : Type} [DecidableEq κ]
    {l : List (κ × α)} {k : κ} {v : α} (h : alookup l k = some v) : (k, v) ∈ l := by
  induction l with
  | nil => simp [alookup] at h
  | cons hd tl ih =>
    obtain ⟨k', v'⟩ := hd
    by_cases hk : k' = k
    · subst hk
      simp [alookup] at h
      simp [h]
    · simp [alookup, hk] at h
      exact List.mem_cons_of_mem _ (ih h)

theorem alookup_eq_some_of_mem_of_nodup {κ α : Type} [DecidableEq κ]
    {l : List (κ × α)} {k : κ} {v : α} (hnd : (l.map Prod.fst).Nodup)
    (hmem : (k, v) ∈ l) : alookup l k = some v := by
  induction l with
  | nil => simp at hmem
  | cons hd tl ih =>
    obtain ⟨k', v'⟩ := hd
    simp only [List.map_cons, List.nodup_cons] at hnd
    rcases List.mem_cons.mp hmem with h | h
    · obtain ⟨h1, h2⟩ := Prod.mk.injEq .. ▸ h
      simp [alookup, h1.symm, h2]
    · have hk : k' ≠ k := by
        intro he
        exact hnd.1 (he ▸ (List.mem_map.mpr ⟨(k, v), h, rfl⟩))
      simp [alookup, hk, ih hnd.2 h]

theorem alookup_isSome_iff_mem_keys {κ α : Type} [DecidableEq κ]
    (l : List (κ × α)) (k : κ) :
    (alookup l k).isSome = true ↔ k ∈ l.map Prod.fst := by
  induction l with
  | nil => simp [alookup]
  | cons hd tl ih =>
    obtain ⟨k', v'⟩ := hd
    by_cases h : k' = k
    · subst h
      simp [alookup]
    · simp only [alookup, if_neg h, List.map_cons, List.mem_cons]
      rw [ih]
      constructor
      · exact Or.inr
      · rintro (he | hm)
        · exact absurd he.symm h
        · exact hm

theorem vparse_path_eq {s : Str} {sp : VSecretPath} (h : vparse s = .ok sp) :
    sp.path = s := by
  unfold vparse at h
  repeat' split at h
  all_goals simp_all
  exact congrArg VSecretPath.path h.symm

namespace subst

theorem findDollarBrace_pos {s : Str} {e : Nat}
    (hne : ¬s.take 2 = ['$', '{']) (h : findDollarBrace s = some e) : 0 < e := by
  match s with
  | [] => simp [findDollarBrace] at h
  | [x] => simp [findDollarBrace] at h
  | x :: y :: rest =>
    rw [findDollarBrace] at h
    split at h
    · rename_i hxy
      rw [Bool.and_eq_true, decide_eq_true_eq, decide_eq_true_eq] at hxy
      exact absurd (by simp [hxy.1, hxy.2]) hne
    · obtain ⟨e', _, he⟩ := Option.map_eq_some'.mp h
      omega

theorem next_shrinks {s : Str} {t : Token} {r : Str}
    (h : next s = some (t, r)) : r.length < s.length := by
  unfold next at h
  split at h
  · exact absurd h (by simp)
  · rename_i hne
    split at h
    · unfold yield_var at h
      split at h
      · rename_i e he
        obtain ⟨ht, hr⟩ := Prod.mk.injEq .. ▸ (Option.some.injEq .. ▸ h)
        subst hr
        simp only [List.length_drop]
        have hpos : 0 < s.length := by
          cases s
          · simp at hne
          · simp
        omega
      · obtain ⟨ht, hr⟩ := Prod.mk.injEq .. ▸ (Option.some.injEq .. ▸ h)
        subst hr
        cases s
        · simp at hne
        · simp
    · rename_i hpat
      split at h
      · obtain ⟨ht, hr⟩ := Prod.mk.injEq .. ▸ (Option.some.injEq .. ▸ h)
        subst hr
        cases s
        · simp at hne
        · simp
      · rename_i e he
        obtain ⟨ht, hr⟩ := Prod.mk.injEq .. ▸ (Option.some.injEq .. ▸ h)
        subst hr
        have hepos : 0 < e := findDollarBrace_pos hpat he
        have hpos : 0 < s.length := by
          cases s
          · simp at hne
          · simp
        simp only [List.length_drop]
        omega

theorem tokensF_length_le : ∀ (fuel : Nat) (s : Str),
    (tokensF fuel s).length ≤ s.length := by
  intro fuel
  induction fuel with
  | zero => intro s; simp [tokensF]
  | succ n ih =>
    intro s
    rw [tokensF]
    split
    · simp
    · rename_i tr htr
      have hlt := @next_shrinks s tr.1 tr.2 (by rw [htr])
      have := ih tr.2
      simp only [List.length_cons]
      omega

end subst

theorem aupsert_eq_append {κ α : Type} [DecidableEq κ]
    {l : List (κ × α)} {k : κ} (v : α) (h : k ∉ l.map Prod.fst) :
    aupsert l k v = l ++ [(k, v)] := by
  induction l with
  | nil => rfl
  | cons hd tl ih =>
    obtain ⟨k', v'⟩ := hd
    simp only [List.map_cons, List.mem_cons, not_or] at h
    simp [aupsert, Ne.symm h.1, ih h.2]

theorem mem_declaredImage_names {declared : List (Str × Str)}
    {store : SecretsM} {n : Str} :
    n ∈ (declaredImage declared store).map Prod.fst ↔
      ∃ p s, (p, some s) ∈ store ∧ alookup declared p = some n := by
  induction store with
  | nil => simp [declaredImage]
  | cons hd tl ih =>
    obtain ⟨p₀, o₀⟩ := hd
    match o₀ with
    | none =>
      simp only [declaredImage, ih, List.mem_cons]
      constructor
      · rintro ⟨p, s, hm, hl⟩
        exact ⟨p, s, Or.inr hm, hl⟩
      · rintro ⟨p, s, he | hm, hl⟩
        · rw [Prod.mk.injEq] at he
          exact absurd he.2 (fun hc => Option.noConfusion hc)
        · exact ⟨p, s, hm, hl⟩
    | some s₀ =>
      match h₀ : alookup declared p₀ with
      | some n₀ =>
        simp only [declaredImage, h₀, List.map_cons, List.mem_cons, ih]
        constructor
        · rintro (rfl | ⟨p, s, hm, hl⟩)
          · exact ⟨p₀, s₀, Or.inl rfl, h₀⟩
          · exact ⟨p, s, Or.inr hm, hl⟩
        · rintro ⟨p, s, he | hm, hl⟩
          · rw [Prod.mk.injEq] at he
            obtain ⟨hp, _⟩ := he
            subst hp
            rw [h₀] at hl
            exact Or.inl (Option.some.inj hl).symm
          · exact Or.inr ⟨p, s, hm, hl⟩
      | none =>
        simp only [declaredImage, h₀, ih, List.mem_cons]
        constructor
        · rintro ⟨p, s, hm, hl⟩
          exact ⟨p, s, Or.inr hm, hl⟩
        · rintro ⟨p, s, he | hm, hl⟩
          · rw [Prod.mk.injEq] at he
            obtain ⟨hp, _⟩ := he
            subst hp
            rw [h₀] at hl
            exact Option.noConfusion hl
          · exact ⟨p, s, hm, hl⟩

theorem mem_declaredImage_of_mem {declared : List (Str × Str)}
    {store : SecretsM} {p : Str} {s : Secret} {n : Str}
    (hmem : (p, some s) ∈ store) (hl : alookup declared p = some n) :
    (n, s.value) ∈ declaredImage declared store := by
  induction store with
  | nil => simp at hmem
  | cons hd tl ih =>
    obtain ⟨p₀, o₀⟩ := hd
    rcases List.mem_cons.mp hmem with he | hm
    · rw [Prod.mk.injEq] at he
      obtain ⟨hp, ho⟩ := he
      subst hp
      rw [← ho]
      simp [declaredImage, hl]
    · have hrec := ih hm
      match o₀ with
      | none => simpa [declaredImage] using hrec
      | some s₀ =>
        match h₀ : alookup declared p₀ with
        | some n₀ => simp [declaredImage, h₀, hrec]
        | none => simpa [declaredImage, h₀] using hrec

theorem snd_eq_of_nodup_map_snd {declared : List (Str × Str)}
    (hnd : (declared.map Prod.snd).Nodup) {p p' n : Str}
    (h1 : (p, n) ∈ declared) (h2 : (p', n) ∈ declared) : p = p' := by
  induction declared with
  | nil => simp at h1
  | cons hd tl ih =>
    obtain ⟨q, m⟩ := hd
    simp only [List.map_cons, List.nodup_cons] at hnd
    rcases List.mem_cons.mp h1 with he1 | hm1 <;>
      rcases List.mem_cons.mp h2 with he2 | hm2
    · rw [Prod.mk.injEq] at he1 he2
      exact he1.1.trans he2.1.symm
    · rw [Prod.mk.injEq] at he1
      exact absurd (he1.2 ▸ List.mem_map.mpr ⟨(p', n), hm2, rfl⟩) hnd.1
    · rw [Prod.mk.injEq] at he2
      exact absurd (he2.2 ▸ List.mem_map.mpr ⟨(p, n), hm1, rfl⟩) hnd.1
    · exact ih hnd.2 hm1 hm2

theorem declaredImage_names_nodup {declared : List (Str × Str)}
    {store : SecretsM} (hkeys : (store.map Prod.fst).Nodup)
    (hnames : (declared.map Prod.snd).Nodup) :
    ((declaredImage declared store).map Prod.fst).Nodup := by
  induction store with
  | nil => simp [declaredImage]
  | cons hd tl ih =>
    obtain ⟨p₀, o₀⟩ := hd
    simp only [List.map_cons, List.nodup_cons] at hkeys
    have hrec := ih hkeys.2
    match o₀ with
    | none => simpa [declaredImage] using hrec
    | some s₀ =>
      match h₀ : alookup declared p₀ with
      | some n₀ =>
        simp only [declaredImage, h₀, List.map_cons, List.nodup_cons]
        refine ⟨?_, hrec⟩
        intro hmem
        obtain ⟨p, s, hm, hl⟩ := mem_declaredImage_names.mp hmem
        have hp : p₀ = p :=
          snd_eq_of_nodup_map_snd hnames (alookup_mem h₀) (alookup_mem hl)
        exact hkeys.1 (hp ▸ List.mem_map.mpr ⟨(p, some s), hm, rfl⟩)
      | none => simpa [declaredImage, h₀] using hrec

theorem buildSecretsValGo_ok {declared : List (Str × Str)} :
    ∀ (store : SecretsM) (acc : List (Str × JsonValue)),
    (∀ e ∈ store, e.2.isSome = true) →
    (∀ n ∈ (declaredImage declared store).map Prod.fst, n ∉ acc.map Prod.fst) →
    ((declaredImage declared store).map Prod.fst).Nodup →
    buildSecretsValGo declared store acc =
      .ok (acc ++ declaredImage declared store) := by
  intro store
  induction store with
  | nil =>
    intro acc _ _ _
    simp [buildSecretsValGo, declaredImage]
  | cons hd tl ih =>
    intro acc hall hfresh hnod
    obtain ⟨p₀, o₀⟩ := hd
    have ho₀ : o₀.isSome = true := hall (p₀, o₀) (List.mem_cons_self _ _)
    obtain ⟨s₀, rfl⟩ := Option.isSome_iff_exists.mp ho₀
    match h₀ : alookup declared p₀ with
    | some n₀ =>
      simp only [declaredImage, h₀, List.map_cons, List.nodup_cons,
        List.mem_cons] at hfresh hnod
      simp only [buildSecretsValGo, h₀]
      rw [aupsert_eq_append s₀.value (hfresh n₀ (Or.inl rfl))]
      rw [ih (acc ++ [(n₀, s₀.value)])
        (fun e he => hall e (List.mem_cons_of_mem _ he))
        (fun n hn => by
          simp only [List.map_append, List.mem_append, List.map_cons,
            List.map_nil, List.mem_singleton, not_or]
          exact ⟨hfresh n (Or.inr hn), fun he => hnod.1 (he ▸ hn)⟩)
        hnod.2]
      simp [declaredImage, h₀, List.append_assoc]
    | none =>
      simp only [declaredImage, h₀] at hfresh hnod
      simp only [buildSecretsValGo, h₀]
      rw [ih acc (fun e he => hall e (List.mem_cons_of_mem _ he)) hfresh hnod]
      simp [declaredImage, h₀]

namespace parser

theorem literalGo_append : ∀ s : Str, (literalGo s).1 ++ (literalGo s).2 = s := by
  intro s
  induction s with
  | nil => rfl
  | cons c rest ih =>
    rw [literalGo]
    split
    · rfl
    · simpa using ih

theorem literalGo_chars : ∀ s : Str, ∀ c ∈ (literalGo s).1, isDelim c = false := by
  intro s
  induction s with
  | nil => intro c hc; simp [literalGo] at hc
  | cons x rest ih =>
    intro c hc
    rw [literalGo] at hc
    split at hc
    · simp at hc
    · rename_i hx
      simp only at hc
      rcases List.mem_cons.mp hc with rfl | hm
      · exact Bool.not_eq_true _ ▸ hx
      · exact ih c hm

theorem literal_spec {s t r : Str} (h : literal s = some (t, r)) :
    s = t ++ r ∧ t ≠ [] ∧ ∀ c ∈ t, isDelim c = false := by
  simp only [literal] at h
  split at h
  · exact Option.noConfusion h
  · rename_i hne
    obtain ⟨ht, hr⟩ := Prod.mk.injEq .. ▸ Option.some.inj h
    subst ht
    subst hr
    refine ⟨(literalGo_append s).symm, ?_, literalGo_chars s⟩
    intro hc
    rw [hc] at hne
    simp at hne

theorem alpha1Go_append : ∀ s : Str, (alpha1Go s).1 ++ (alpha1Go s).2 = s := by
  intro s
  induction s with
  | nil => rfl
  | cons c rest ih =>
    rw [alpha1Go]
    split
    · simpa using ih
    · rfl

theorem alpha1Go_chars : ∀ s : Str, ∀ c ∈ (alpha1Go s).1, c.isAlpha = true := by
  intro s
  induction s with
  | nil => intro c hc; simp [alpha1Go] at hc
  | cons x rest ih =>
    intro c hc
    rw [alpha1Go] at hc
    split at hc
    · rename_i hx
      simp only at hc
      rcases List.mem_cons.mp hc with rfl | hm
      · exact hx
      · exact ih c hm
    · simp at hc

theorem alpha1_spec {s t r : Str} (h : alpha1 s = some (t, r)) :
    s = t ++ r ∧ t ≠ [] ∧ ∀ c ∈ t, c.isAlpha = true := by
  simp only [alpha1] at h
  split at h
  · exact Option.noConfusion h
  · rename_i hne
    obtain ⟨ht, hr⟩ := Prod.mk.injEq .. ▸ Option.some.inj h
    subst ht
    subst hr
    refine ⟨(alpha1Go_append s).symm, ?_, alpha1Go_chars s⟩
    intro hc
    rw [hc] at hne
    simp at hne

theorem kwarg_spec {s : Str} {a : Arg} {r : Str} (h : kwarg s = some (a, r)) :
    s = argStr a ++ r ∧ ArgWF a := by
  unfold kwarg at h
  split at h
  · rename_i k r1 hk
    split at h
    · rename_i r2
      split at h
      · rename_i v r3 hv
        obtain ⟨ha, hr⟩ := Prod.mk.injEq .. ▸ Option.some.inj h
        subst ha
        subst hr
        obtain ⟨hs1, hk1, hk2⟩ := literal_spec hk
        obtain ⟨hs2, hv1, hv2⟩ := literal_spec hv
        subst hs1
        subst hs2
        exact ⟨by simp [argStr], ⟨hk1, hk2⟩, hv1, hv2⟩
      · exact Option.noConfusion h
    · exact Option.noConfusion h
  · exact Option.noConfusion h

theorem arg_spec {s : Str} {a : Arg} {r : Str} (h : arg s = some (a, r)) :
    s = argStr a ++ r ∧ ArgWF a := by
  unfold arg at h
  match hl : literal s with
  | none => rw [hl] at h; exact Option.noConfusion h
  | some (t, r') =>
    rw [hl] at h
    obtain ⟨ha, hr⟩ := Prod.mk.injEq .. ▸ Option.some.inj h
    subst ha
    subst hr
    obtain ⟨hs, h1, h2⟩ := literal_spec hl
    exact ⟨hs ▸ rfl, h1, h2⟩

theorem altArg_spec {s : Str} {a : Arg} {r : Str} (h : altArg s = some (a, r)) :
    s = argStr a ++ r ∧ ArgWF a := by
  unfold altArg at h
  split at h
  · rename_i ar hk
    obtain ⟨ha, hr⟩ := Prod.mk.injEq .. ▸ Option.some.inj h
    exact ha ▸ hr ▸ kwarg_spec (by rw [hk])
  · exact arg_spec h

theorem joinSep_cons (sep : Str) (x : Str) {l : List Str} (h : l ≠ []) :
    joinSep sep (x :: l) = x ++ sep ++ joinSep sep l := by
  match l with
  | [] => exact absurd rfl h
  | y :: rest => rfl

theorem arg1F_spec : ∀ (fuel : Nat) (s : Str) (l : List Arg) (r : Str),
    arg1F fuel s = some (l, r) →
    s = joinSep [','] (l.map argStr) ++ r ∧ l ≠ [] ∧ ∀ a ∈ l, ArgWF a := by
  intro fuel
  induction fuel with
  | zero => intro s l r h; exact Option.noConfusion h
  | succ n ih =>
    intro s l r h
    rw [arg1F] at h
    cases ha : altArg s with
    | none => rw [ha] at h; exact Option.noConfusion h
    | some ar =>
      rw [ha] at h
      obtain ⟨hs, hwf⟩ := altArg_spec ha
      dsimp only at h
      split at h
      · rename_i r2 har
        split at h
        · rename_i lr hrec
          obtain ⟨hl, hr⟩ := Prod.mk.injEq .. ▸ Option.some.inj h
          subst hl
          subst hr
          obtain ⟨hs2, hne2, hwf2⟩ := ih r2 lr.1 lr.2 (by rw [hrec])
          refine ⟨?_, by simp, ?_⟩
          · rw [hs, har, hs2, List.map_cons,
              joinSep_cons [','] (argStr ar.1) (by simpa using hne2)]
            simp
          · intro a hm
            rcases List.mem_cons.mp hm with rfl | hm'
            · exact hwf
            · exact hwf2 a hm'
        · obtain ⟨hl, hr⟩ := Prod.mk.injEq .. ▸ Option.some.inj h
          subst hl
          subst hr
          refine ⟨by rw [hs]; simp [joinSep], by simp, ?_⟩
          intro a hm
          rw [List.mem_singleton] at hm
          subst hm
          exact hwf
      · obtain ⟨hl, hr⟩ := Prod.mk.injEq .. ▸ Option.some.inj h
        subst hl
        subst hr
        refine ⟨by rw [hs]; simp [joinSep], by simp, ?_⟩
        intro a hm
        rw [List.mem_singleton] at hm
        subst hm
        exact hwf

theorem mem_joinSep {sep : Str} {l : List Str} {x : Char}
    (h : x ∈ joinSep sep l) : x ∈ sep ∨ ∃ t ∈ l, x ∈ t := by
  induction l with
  | nil => simp [joinSep] at h
  | cons t rest ih =>
    match rest with
    | [] =>
      simp only [joinSep] at h
      exact Or.inr ⟨t, by simp, h⟩
    | u :: us =>
      rw [joinSep_cons sep t (by simp)] at h
      rcases List.mem_append.mp h with h1 | h2
      · rcases List.mem_append.mp h1 with h3 | h4
        · exact Or.inr ⟨t, by simp, h3⟩
        · exact Or.inl h4
      · rcases ih h2 with h3 | ⟨t', ht', hx⟩
        · exact Or.inl h3
        · exact Or.inr ⟨t', List.mem_cons_of_mem _ ht', hx⟩

theorem splitOnChar_of_not_mem {c : Char} {a : Str} (h : ∀ x ∈ a, ¬x = c) :
    splitOnChar c a = [a] := by
  induction a with
  | nil => rfl
  | cons x rest ih =>
    have hx := h x (List.mem_cons_self _ _)
    rw [splitOnChar, if_neg hx, ih (fun y hy => h y (List.mem_cons_of_mem _ hy))]

theorem splitOnChar_append {c : Char} {a : Str} (b : Str)
    (h : ∀ x ∈ a, ¬x = c) :
    splitOnChar c (a ++ c :: b) = a :: splitOnChar c b := by
  induction a with
  | nil =>
    rw [List.nil_append, splitOnChar, if_pos rfl]
  | cons x rest ih =>
    have hx := h x (List.mem_cons_self _ _)
    rw [List.cons_append, splitOnChar, if_neg hx,
      ih (fun y hy => h y (List.mem_cons_of_mem _ hy))]

theorem splitOnChar_joinSep {toks : List Str} (hne : toks ≠ [])
    (h : ∀ t ∈ toks, ∀ x ∈ t, ¬x = ',') :
    splitOnChar ',' (joinSep [','] toks) = toks := by
  induction toks with
  | nil => exact absurd rfl hne
  | cons t rest ih =>
    match rest with
    | [] => exact splitOnChar_of_not_mem (h t (by simp))
    | u :: us =>
      rw [joinSep_cons [','] t (by simp), List.append_assoc,
        List.singleton_append,
        splitOnChar_append _ (h t (by simp)),
        ih (by simp) (fun t' ht' x hx => h t' (List.mem_cons_of_mem _ ht') x hx)]

theorem argStr_no_colon {a : Arg} (h : ArgWF a) : ∀ x ∈ argStr a, ¬x = ':' := by
  match a with
  | .arg s =>
    intro x hx hc
    subst hc
    have := h.2 ':' hx
    simp [isDelim] at this
  | .kwArg k v =>
    intro x hx hc
    subst hc
    rcases List.mem_append.mp hx with h1 | h2
    · have := h.1.2 ':' h1
      simp [isDelim] at this
    · rcases List.mem_cons.mp h2 with he | h3
      · exact absurd he (by decide)
      · have := h.2.2 ':' h3
        simp [isDelim] at this

theorem argStr_no_comma {a : Arg} (h : ArgWF a) : ∀ x ∈ argStr a, ¬x = ',' := by
  match a with
  | .arg s =>
    intro x hx hc
    subst hc
    have := h.2 ',' hx
    simp [isDelim] at this
  | .kwArg k v =>
    intro x hx hc
    subst hc
    rcases List.mem_append.mp hx with h1 | h2
    · have := h.1.2 ',' h1
      simp [isDelim] at this
    · rcases List.mem_cons.mp h2 with he | h3
      · exact absurd he (by decide)
      · have := h.2.2 ',' h3
        simp [isDelim] at this

theorem filter_pos_eq {l : List Arg} (h : ∀ a ∈ l, ArgWF a) :
    (l.map argStr).filter (fun t => !decide ('=' ∈ t)) = (splitargsGo l).1 := by
  induction l with
  | nil => rfl
  | cons a rest ih =>
    have hih := ih (fun a' ha' => h a' (List.mem_cons_of_mem _ ha'))
    match a with
    | .arg s =>
      have hwf := h (.arg s) (List.mem_cons_self _ _)
      have hnc : '=' ∉ s := by
        intro hc
        have := hwf.2 '=' hc
        simp [isDelim] at this
      simp [splitargsGo, argStr, hnc, hih]
    | .kwArg k v =>
      have hc : '=' ∈ argStr (.kwArg k v) := by simp [argStr]
      simp only [List.map_cons, List.filter_cons, argStr] at hc ⊢
      simp only [hc, decide_True]
      simpa [splitargsGo] using hih

theorem filter_kw_eq {l : List Arg} (h : ∀ a ∈ l, ArgWF a) :
    (l.map argStr).filter (fun t => decide ('=' ∈ t)) =
      (splitargsGo l).2.map (fun kv => kv.1 ++ '=' :: kv.2) := by
  induction l with
  | nil => rfl
  | cons a rest ih =>
    have hih := ih (fun a' ha' => h a' (List.mem_cons_of_mem _ ha'))
    match a with
    | .arg s =>
      have hwf := h (.arg s) (List.mem_cons_self _ _)
      have hnc : '=' ∉ s := by
        intro hc
        have := hwf.2 '=' hc
        simp [isDelim] at this
      simp [splitargsGo, argStr, hnc, hih]
    | .kwArg k v =>
      have hc : '=' ∈ argStr (.kwArg k v) := by simp [argStr]
      simp only [List.map_cons, List.filter_cons, argStr] at hc ⊢
      simp only [hc, decide_True]
      simp [splitargsGo, argStr, hih]

theorem kwfold_eq_flatten : ∀ (kws : List (Str × Str)) (acc : Str),
    kws.foldl (fun acc kv => acc ++ [','] ++ kv.1 ++ ['='] ++ kv.2) acc =
      acc ++ (kws.map (fun kv => ',' :: (kv.1 ++ '=' :: kv.2))).flatten := by
  intro kws
  induction kws with
  | nil => intro acc; simp
  | cons kv rest ih =>
    intro acc
    rw [List.foldl_cons, ih]
    simp [List.append_assoc]

theorem flatten_map_cons_sep (sep : Str) : ∀ (toks : List Str), toks ≠ [] →
    (toks.map (fun t => sep ++ t)).flatten = sep ++ joinSep sep toks := by
  intro toks
  induction toks with
  | nil => intro h; exact absurd rfl h
  | cons t rest ih =>
    intro _
    match rest with
    | [] => simp [joinSep]
    | u :: us =>
      rw [List.map_cons, List.flatten_cons, ih (by simp),
        joinSep_cons sep t (by simp)]
      simp [List.append_assoc]

theorem joinSep_append_flatten (sep : Str) :
    ∀ (pos toks : List Str), pos ≠ [] →
    joinSep sep (pos ++ toks) =
      joinSep sep pos ++ (toks.map (fun t => sep ++ t)).flatten := by
  intro pos
  induction pos with
  | nil => intro toks h; exact absurd rfl h
  | cons x rest ih =>
    intro toks _
    match rest with
    | [] =>
      match toks with
      | [] => simp [joinSep]
      | u :: us =>
        rw [List.singleton_append, joinSep_cons sep x (by simp),
          flatten_map_cons_sep sep (u :: us) (by simp)]
        simp [joinSep, List.append_assoc]
    | y :: ys =>
      rw [List.cons_append,
        joinSep_cons sep x (by simp : (y :: ys) ++ toks ≠ []),
        ih toks (by simp), joinSep_cons sep x (by simp)]
      simp [List.append_assoc]

theorem backend_display_of_find {tok : Str} {pb : Str × secret.Backend}
    (h : secret.BACKENDS.find? (fun pb => pb.1.isPrefixOf tok) = some pb) :
    secret.Backend.display pb.2 = pb.1 := by
  have hmem := List.mem_of_find?_eq_some h
  simp only [secret.BACKENDS, List.mem_cons, List.not_mem_nil, or_false] at hmem
  rcases hmem with rfl | rfl | rfl <;> decide

end parser

/-- C6: `Secrets::replace(p, s)` returns `true` iff the slot for `p` was
previously absent or `None`, or the previous secret's payload differs from
`s`'s payload; after the call the slot for `p` is `Some(s)` in every case. -/
theorem secrets_replace_spec (m : SecretsM) (p : Str) (s : Secret) :
    ((SecretsM.replace m p s).2 = true ↔
      alookup m p = none ∨ alookup m p = some none ∨
        ∃ q, alookup m p = some (some q) ∧ q.value ≠ s.value) ∧
    alookup (SecretsM.replace m p s).1 p = some (some s) := by
  constructor
  · unfold SecretsM.replace
    match h : alookup m p with
    | none => simp [h]
    | some none => simp [h]
    | some (some q) => simp [h]
  · exact alookup_aupsert_self m p (some s)

/-- C3: when the `generated` counter reaches the number of registered jobs,
the event loop leaves iff daemon mode is off or no stored secret is leased;
in particular non-daemon mode always exits after the full pass. -/
theorem event_loop_exit_condition (generated confsLen : Nat)
    (first_run daemon : Bool) (secrets : SecretsM)
    (h : generated + 1 = confsLen) :
    ((finishGenerate generated confsLen first_run daemon secrets).exit = true ↔
      ¬(daemon = true ∧ SecretsM.any_leased secrets = true)) ∧
    (daemon = false →
      (finishGenerate generated confsLen first_run daemon secrets).exit = true) := by
  unfold finishGenerate
  simp only [h, if_pos]
  constructor
  · cases daemon <;> cases hsl : SecretsM.any_leased secrets <;> simp_all
  · intro hd
    subst hd
    simp

theorem event_loop_exit_condition_witness :
    (finishGenerate 0 1 true false
        [("exe:str,dynamic:/bin/echo hello".toList,
          some (Secret.new (.str "hello".toList) (some 0) 0))]).exit = true := by
  exact (event_loop_exit_condition 0 1 true false _ rfl).2 rfl

/-- C8: the `GenerateTemplate` sequence emitted by `generate_all_templates`
depends on the registry's iteration order — the same two insertions iterated
in the two possible orders give different message sequences, so the
`HashMap`-backed registry (whose per-process hash seed fixes no order) does
not yield the claimed run-to-run deterministic insertion order. -/
theorem generate_all_templates_order_dependent :
    generate_all_templates
        [("a".toList, ⟨[], [], [], [], ⟨none, none⟩⟩),
         ("b".toList, ⟨[], [], [], [], ⟨none, none⟩⟩)] [] ≠
      generate_all_templates
        [("b".toList, ⟨[], [], [], [], ⟨none, none⟩⟩),
         ("a".toList, ⟨[], [], [], [], ⟨none, none⟩⟩)] [] := by
  decide

/-- C5: the mode string `0644` parses as octal 420, yet after the write step
of the source the on-disk mode is still the creation mode (here 0o600 = 384):
the `set_mode` result is dropped and never applied to the file. -/
theorem mode_never_applied_to_disk :
    from_str_radix8 "0644".toList = some 420 ∧
    (writeFileStep 384 "bar".toList (from_str_radix8 "0644".toList)).mode = 384 ∧
    (writeFileStep 384 "bar".toList (from_str_radix8 "0644".toList)).mode ≠ 420 := by
  decide

/-- C4: fetching `exe:js:/bin/emit` with a command that prints `[1, 2]` on
stdout stores the parse of the absent environment variable's default `""`
(the empty JSON string), not the parse of the stdout: the `js` arm of the exe
backend feeds `env::var(full_path)` to the JSON parser. -/
theorem exe_js_parses_envvar_not_stdout :
    handleGetSecret w4 [] [("exe:js:/bin/emit".toList, none)]
        "exe:js:/bin/emit".toList false =
      (.ok ⟨[("exe:js:/bin/emit".toList, some (Secret.new (.str []) none 0))],
            [], []⟩,
       [.exec ["/bin/emit".toList], .envRead "/bin/emit".toList]) ∧
    w4.jsonParse "[1, 2]".toList =
      .ok (.arr (.cons (.num 1) (.cons (.num 2) .nil))) ∧
    (JsonValue.str []) ≠ .arr (.cons (.num 1) (.cons (.num 2) .nil)) := by
  decide

/-- C2: counterexample — with the job's declared secret present in the store
but another slot still `None`, the binding-map construction of the
`GenerateTemplate` arm fails (the source unwraps every store slot before the
declared-secrets filter), refuting the claim that the build succeeds
regardless of other slots. -/
theorem binding_map_counterexample :
    buildSecretsVal
        [("env:str:A".toList, some (Secret.new (.str "x".toList) none 0)),
         ("env:str:B".toList, none)]
        [("env:str:A".toList, "a".toList)] = .error () := by
  decide

/-- C7: counterexample — `vaultx:k=v:p` parses (backend matching is by
prefix) but prints as `vault:,k=v:p`: the backend token is canonicalized and
a leading comma appears because all args are kwargs, while the claim's
kwargs-reordered original is `vaultx:k=v:p` itself. -/
theorem parse_display_roundtrip_counterexample :
    (parser.tryFrom "vaultx:k=v:p".toList).map secret.SecretPath.display =
      .ok "vault:,k=v:p".toList ∧
    kwargsReorder "vaultx:k=v:p".toList = some "vaultx:k=v:p".toList ∧
    "vault:,k=v:p".toList ≠ "vaultx:k=v:p".toList := by
  decide

/-- C1: a `GetSecret` message whose store slot holds a present, valid,
not-to-renew secret is a no-op: the handler returns the store unchanged,
sends no message, schedules nothing and performs no backend effect. -/
theorem getSecret_fresh_is_noop (w : World) (confs : List (Str × TemplateConf))
    (secrets : SecretsM) (path : Str) (gen_tmpl : Bool) (sp : VSecretPath)
    (s : Secret)
    (hp : vparse path = .ok sp)
    (hs : alookup secrets path = some (some s))
    (hv : s.is_valid w.now = true)
    (hr : s.to_renew w.now = false) :
    handleGetSecret w confs secrets path gen_tmpl = (.ok ⟨secrets, [], []⟩, []) := by
  unfold handleGetSecret
  rw [hp]
  simp only [vparse_path_eq hp, hs, hv, hr]
  simp

theorem getSecret_fresh_is_noop_witness :
    handleGetSecret w4 []
        [("env:str:FOO".toList, some (Secret.new (.str []) none 0))]
        "env:str:FOO".toList true =
      (.ok ⟨[("env:str:FOO".toList, some (Secret.new (.str []) none 0))],
            [], []⟩, []) := by
  exact getSecret_fresh_is_noop w4 [] _ _ true
    { backend := .Env, args := ["str".toList], kwargs := none,
      full_path := "FOO".toList, path := "env:str:FOO".toList }
    (Secret.new (.str []) none 0) (by decide) (by decide) (by decide) (by decide)

/-- C9: an exe-backend fetch that is actually attempted and whose payload's
first whitespace token is not absolute fails with `RelativePath` before any
command is executed (the effect log is empty). -/
theorem exe_relative_path_rejected (w : World) (confs : List (Str × TemplateConf))
    (secrets : SecretsM) (path : Str) (gen_tmpl : Bool) (sp : VSecretPath)
    (role t0 : Str) (ts : List Str)
    (hp : vparse path = .ok sp)
    (hb : sp.backend = .Exe)
    (hguard : (match alookup secrets path with
               | some (some s) => s.is_valid w.now && !s.to_renew w.now
               | _ => false) = false)
    (hrole : sp.args.head? = some role)
    (htok : splitWhitespace sp.full_path = t0 :: ts)
    (habs : ['/'].isPrefixOf t0 = false) :
    handleGetSecret w confs secrets path gen_tmpl =
      (.error (.RelativePath path t0), []) := by
  unfold handleGetSecret
  rw [hp]
  simp only [vparse_path_eq hp, hguard, hrole, hb, htok, habs]
  simp

theorem exe_relative_path_rejected_witness :
    handleGetSecret w4 [] [("exe:str:echo hi".toList, none)]
        "exe:str:echo hi".toList false =
      (.error (.RelativePath "exe:str:echo hi".toList "echo".toList), []) := by
  exact exe_relative_path_rejected w4 [] _ _ false
    { backend := .Exe, args := ["str".toList], kwargs := none,
      full_path := "echo hi".toList, path := "exe:str:echo hi".toList }
    "str".toList "echo".toList ["hi".toList]
    (by decide) (by decide) (by decide) (by decide) (by decide) (by decide)

/-- C10: each `next` call of the substitution iterator returns `none` exactly
on the empty remainder and otherwise strictly shortens the remainder, so the
token stream of any input is finite (bounded by the input length) and the
fold of `subst_envar` over it is total. -/
theorem subst_iterator_terminates (s : Str) :
    (s = [] → subst.next s = none) ∧
    (s ≠ [] → ∃ t r, subst.next s = some (t, r) ∧ r.length < s.length) ∧
    (subst.tokens s).length ≤ s.length := by
  refine ⟨?_, ?_, subst.tokensF_length_le _ s⟩
  · intro he
    subst he
    simp [subst.next]
  · intro hne
    match h : subst.next s with
    | none =>
      exfalso
      unfold subst.next at h
      split at h
      · simp_all
      · split at h
        · exact Option.noConfusion h
        · split at h <;> exact Option.noConfusion h
    | some tr =>
      have h' : subst.next s = some (tr.1, tr.2) := by rw [h]
      exact ⟨tr.1, tr.2, by simp, subst.next_shrinks h'⟩

theorem subst_iterator_terminates_witness :
    ∃ t r, subst.next "${A}x".toList = some (t, r) ∧
      r.length < ("${A}x".toList).length :=
  (subst_iterator_terminates "${A}x".toList).2.1 (by decide)


/-- C2 (amended): when the registered job's declared secrets all map to
present `Some` secrets in the store, the binding names are pairwise distinct,
and additionally every slot of the whole store is present (the source unwraps
every slot before filtering, so a `None` slot for another job's secret makes
the build panic), the binding map builds successfully and holds exactly one
`binding_name → secret_value` entry per declared secret of the job. -/
theorem binding_map_amended (store : SecretsM) (declared : List (Str × Str))
    (hstore_keys : (store.map Prod.fst).Nodup)
    (hdecl_keys : (declared.map Prod.fst).Nodup)
    (hdecl_names : (declared.map Prod.snd).Nodup)
    (hdeclared : ∀ pn ∈ declared, ∃ s, alookup store pn.1 = some (some s))
    (hall : ∀ e ∈ store, e.2.isSome = true) :
    ∃ m, buildSecretsVal store declared = .ok m ∧
      (m.map Prod.fst).Nodup ∧
      (∀ n, n ∈ m.map Prod.fst ↔ n ∈ declared.map Prod.snd) ∧
      (∀ pn ∈ declared, ∀ s, alookup store pn.1 = some (some s) →
        alookup m pn.2 = some s.value) := by
  have hnod :=
    @declaredImage_names_nodup declared store hstore_keys hdecl_names
  refine ⟨declaredImage declared store, ?_, hnod, ?_, ?_⟩
  · have hfresh0 : ∀ n ∈ (declaredImage declared store).map Prod.fst,
        n ∉ ([] : List (Str × JsonValue)).map Prod.fst := by
      intro n _ hc
      simp at hc
    have h := @buildSecretsValGo_ok declared store [] hall hfresh0 hnod
    simpa [buildSecretsVal] using h
  · intro n
    rw [mem_declaredImage_names]
    constructor
    · rintro ⟨p, s, _, hl⟩
      exact List.mem_map.mpr ⟨(p, n), alookup_mem hl, rfl⟩
    · intro hn
      obtain ⟨⟨p, n'⟩, hm, he⟩ := List.mem_map.mp hn
      simp only at he
      subst he
      obtain ⟨s, hs⟩ := hdeclared (p, n') hm
      exact ⟨p, s, alookup_mem hs,
        alookup_eq_some_of_mem_of_nodup hdecl_keys hm⟩
  · rintro ⟨p, n⟩ hm s hs
    exact alookup_eq_some_of_mem_of_nodup hnod
      (mem_declaredImage_of_mem (alookup_mem hs)
        (alookup_eq_some_of_mem_of_nodup hdecl_keys hm))

theorem binding_map_amended_witness :
    ∃ m, buildSecretsVal
        [("env:str:A".toList, some (Secret.new (.str "x".toList) none 0)),
         ("env:str:B".toList, some (Secret.new (.str "y".toList) none 0))]
        [("env:str:A".toList, "a".toList)] = .ok m ∧
      (m.map Prod.fst).Nodup ∧
      (∀ n, n ∈ m.map Prod.fst ↔
        n ∈ [("env:str:A".toList, "a".toList)].map Prod.snd) ∧
      (∀ pn ∈ [("env:str:A".toList, "a".toList)],
        ∀ s, alookup
          [("env:str:A".toList, some (Secret.new (.str "x".toList) none 0)),
           ("env:str:B".toList, some (Secret.new (.str "y".toList) none 0))]
          pn.1 = some (some s) →
        alookup m pn.2 = some s.value) :=
  binding_map_amended _ _ (by decide) (by decide) (by decide)
    (by
      intro pn hm
      rw [List.mem_singleton] at hm
      subst hm
      exact ⟨Secret.new (.str "x".toList) none 0, by decide⟩)
    (by decide)

/-- C7 (amended): printing a successfully parsed secret path that has at
least one positional argument yields the original string with the backend
token replaced by the canonical table name it prefix-matched and the
`key=value` tokens stably moved after the positional tokens. -/
theorem parse_display_roundtrip_amended (s : Str) (sp : secret.SecretPath)
    (hok : parser.tryFrom s = .ok sp) (hargs : sp.args ≠ []) :
    specReorder s = some sp.display := by
  unfold parser.tryFrom at hok
  split at hok
  · exact Except.noConfusion hok
  · cases hsp : parser.secret_path s with
    | error e => rw [hsp] at hok; exact Except.noConfusion hok
    | ok v =>
      rw [hsp] at hok
      obtain ⟨rest, b, args, p⟩ := v
      dsimp only at hok
      split at hok
      · exact Except.noConfusion hok
      · rename_i hrestne
        have hsp_eq := Except.ok.inj hok
        have hrest : rest = [] := by
          cases rest
          · rfl
          · simp at hrestne
        subst hrest
        unfold parser.secret_path at hsp
        cases hA : parser.alpha1 s with
        | none => rw [hA] at hsp; exact Except.noConfusion hsp
        | some tr1 =>
          obtain ⟨tok, r1⟩ := tr1
          rw [hA] at hsp
          dsimp only at hsp
          cases hB : secret.Backend.tryFrom tok with
          | error e => rw [hB] at hsp; exact Except.noConfusion hsp
          | ok b' =>
            rw [hB] at hsp
            dsimp only at hsp
            split at hsp
            · rename_i r2
              cases hC : parser.arg1 r2 with
              | none => rw [hC] at hsp; exact Except.noConfusion hsp
              | some lr =>
                obtain ⟨args', r3⟩ := lr
                rw [hC] at hsp
                dsimp only at hsp
                split at hsp
                · rename_i r4
                  cases hD : parser.literal r4 with
                  | none => rw [hD] at hsp; exact Except.noConfusion hsp
                  | some pr =>
                    obtain ⟨p', r5⟩ := pr
                    rw [hD] at hsp
                    dsimp only at hsp
                    have hv := Except.ok.inj hsp
                    obtain ⟨hv1, hv2⟩ := Prod.mk.injEq .. ▸ hv
                    obtain ⟨hv3, hv4⟩ := Prod.mk.injEq .. ▸ hv2
                    obtain ⟨hv5, hv6⟩ := Prod.mk.injEq .. ▸ hv4
                    subst hv1
                    subst hv3
                    subst hv5
                    subst hv6
                    subst hsp_eq
                    obtain ⟨hsA, _, hAalpha⟩ := parser.alpha1_spec hA
                    unfold parser.arg1 at hC
                    obtain ⟨hsC, hCne, hCwf⟩ :=
                      parser.arg1F_spec (r2.length + 1) r2 args' (':' :: r4) hC
                    obtain ⟨hsD, _, hDdelim⟩ := parser.literal_spec hD
                    rw [List.append_nil] at hsD
                    subst hsD
                    have hs_eq : s = tok ++ ':' ::
                        (joinSep [','] (args'.map parser.argStr) ++ ':' :: r4) := by
                      rw [hsA, hsC]
                    have htok_colon : ∀ x ∈ tok, ¬x = ':' := by
                      intro x hx hc
                      subst hc
                      exact absurd (hAalpha ':' hx) (by decide)
                    have hJ_colon :
                        ∀ x ∈ joinSep [','] (args'.map parser.argStr),
                          ¬x = ':' := by
                      intro x hx hc
                      rcases parser.mem_joinSep hx with h1 | ⟨t, ht, hxt⟩
                      · subst hc
                        simp at h1
                      · obtain ⟨a, ha, rfl⟩ := List.mem_map.mp ht
                        exact parser.argStr_no_colon (hCwf a ha) x hxt hc
                    have hp_colon : ∀ x ∈ r4, ¬x = ':' := by
                      intro x hx hc
                      subst hc
                      have := hDdelim ':' hx
                      simp [parser.isDelim] at this
                    have hsplit : splitOnChar ':' s =
                        [tok, joinSep [','] (args'.map parser.argStr), r4] := by
                      rw [hs_eq, parser.splitOnChar_append _ htok_colon,
                        parser.splitOnChar_append _ hJ_colon,
                        parser.splitOnChar_of_not_mem hp_colon]
                    unfold specReorder
                    rw [hsplit]
                    dsimp only
                    unfold secret.Backend.tryFrom at hB
                    cases hf : secret.BACKENDS.find?
                        (fun pb => pb.1.isPrefixOf tok) with
                    | none =>
                      rw [hf] at hB
                      dsimp only at hB
                      exact Except.noConfusion hB
                    | some pb =>
                      rw [hf] at hB
                      dsimp only at hB ⊢
                      have hb' : pb.2 = b' := Except.ok.inj hB
                      subst hb' 
                      have hJs : splitOnChar ','
                          (joinSep [','] (args'.map parser.argStr)) =
                          args'.map parser.argStr := by
                        refine parser.splitOnChar_joinSep (by simpa using hCne) ?_
                        intro t ht x hx hc
                        obtain ⟨a, ha, rfl⟩ := List.mem_map.mp ht
                        exact parser.argStr_no_comma (hCwf a ha) x hx hc
                      rw [hJs, parser.filter_pos_eq hCwf, parser.filter_kw_eq hCwf]
                      unfold secret.SecretPath.display
                      dsimp only
                      rw [parser.backend_display_of_find hf]
                      unfold parser.splitargs
                      dsimp only
                      have hpos_ne : (parser.splitargsGo args').1 ≠ [] := by
                        simpa [parser.splitargs] using hargs
                      match hkw : (parser.splitargsGo args').2 with
                      | [] =>
                        simp
                      | kv :: kws' =>
                        rw [if_neg (by simp : ¬((kv :: kws').isEmpty = true))]
                        dsimp only
                        rw [parser.kwfold_eq_flatten, List.nil_append]
                        rw [parser.joinSep_append_flatten [','] _ _ hpos_ne]
                        rw [List.map_map]
                        simp only [List.append_assoc, Function.comp]
                        rfl
                · exact Except.noConfusion hsp
            · exact Except.noConfusion hsp

theorem parse_display_roundtrip_amended_witness :
    specReorder "vault:a,k=v,b:p".toList =
      some (secret.SecretPath.display
        { backend := .Vault, args := ["a".toList, "b".toList],
          kwargs := some [("k".toList, "v".toList)], path := "p".toList }) :=
  parse_display_roundtrip_amended _ _ (by decide) (by decide)
